import Mathlib

/-!
# Verification of the slimy search engine (`slime.go`)

A shallow embedding of the single Go source file `slime.go` of the
repository `vktec/slimy`, together with theorems settling the frozen
claims about its specification.

Conventions of the embedding:

* Go `int32`/`int` values are modelled as unbounded `Int` where the
  program's values cannot overflow (loop counters, counts, thresholds);
  arithmetic that genuinely can wrap at reachable inputs — the squared
  coordinates in `needSwap`'s distance tie-break (`int32`) and the whole
  seed scramble of `CalcChunk` (`int64`) — is modelled with an explicit
  two's-complement wrap (`wrap32` / `wrap64`).
* The 64-bit seed arithmetic of `World.CalcChunk` genuinely relies on
  `int64` two's-complement wrapping (coordinate squares times
  multi-million constants overflow), so it is modelled exactly, via
  `wrap64` / bitwise operations on the 64-bit bit pattern.
* Go panics (`panic`, failed `assert`, array index out of range) are
  modelled as `Except.error` values that propagate through the
  computation; `Except.ok` means the Go code runs to completion.
* The concurrent producer / worker-pool / consumer pipeline of
  `World.Search` is modelled by its canonical schedule: sections are
  processed in the row-major order in which `sendSections` produces
  them, and each non-empty per-section batch is merged in that order.
  Determinism of the merge under any other arrival order is itself one
  of the verified claims.
-/

open List

/-! ## 64-bit two's-complement helpers -/

/-- The set of values of a Go `int64`, as a normalisation function:
`wrap64 n` is the unique integer congruent to `n` mod `2^64` lying in
`[-2^63, 2^63)`.  Go `int64` arithmetic is arithmetic mod `2^64`, so a
single wrap of an exact integer sum models a chain of wrapping ops. -/
def wrap64 (n : Int) : Int := (n + 2 ^ 63) % 2 ^ 64 - 2 ^ 63

/-- Value of a Go `int32`, as a normalisation function: `wrap32 n` is
the unique integer congruent to `n` mod `2^32` lying in `[-2^31, 2^31)`.
Go `int32` arithmetic is arithmetic mod `2^32`, so a single wrap of an
exact integer expression models a chain of wrapping ops. -/
def wrap32 (n : Int) : Int := (n + 2 ^ 31) % 2 ^ 32 - 2 ^ 31

/-- The unsigned 64-bit bit pattern of an integer (two's complement). -/
def toU64 (n : Int) : Nat := (n % 2 ^ 64).toNat

/-- Bitwise XOR of two Go `int64` values (on their bit patterns). -/
def xor64 (a b : Int) : Int := wrap64 (Int.ofNat (Nat.xor (toU64 a) (toU64 b)))

/-! ## The pseudo-random generator

The Go sources in `src/` call `NewRandom` and `Random.NextInt`, which are
defined elsewhere in the repository (not under `src/`). -/

/-- Modelled from the spec: the 48-bit linear-congruential generator
constants — state update `state = (state * 0x5DEECE66D + 0xB) & ((1<<48)-1)`. -/
def lcgMul : Nat := 0x5DEECE66D

/-- Modelled from the spec: the additive LCG constant `0xB`. -/
def lcgAdd : Nat := 0xB

/-- Modelled from the spec: the 48-bit state mask `(1<<48)-1`. -/
def lcgMask : Nat := 2 ^ 48 - 1

/-- Modelled from the spec: `NewRandom` — internal state initialised as
`(seed XOR 0x5DEECE66D) & ((1<<48)-1)`, the seed being a Go `int64`. -/
def randInit (seed : Int) : Nat := Nat.land (Nat.xor (toU64 seed) lcgMul) lcgMask

/-- Modelled from the spec: one generator step; output derives from the
high bits of the state (`bits` high bits, i.e. shift right by `48 - bits`). -/
def randNext (state : Nat) (bits : Nat) : Nat × Nat :=
  let s := Nat.land (state * lcgMul + lcgAdd) lcgMask
  (s >>> (48 - bits), s)

/-- Modelled from the spec: the rejection-sampling loop of
`Random.NextInt` for a non-power-of-two bound: draw a 31-bit value,
reduce modulo the bound, retry if the draw minus its remainder plus
`bound-1` would overflow 31 bits.  The Go loop runs until it succeeds;
here a fuel argument bounds the number of retries, `none` standing for
fuel exhaustion (for bound 10 at most 8 of the `2^31` draws retry, so
any realistic fuel succeeds). -/
def nextIntLoop (bound : Nat) : Nat → Nat → Option Nat
  | 0, _ => none
  | fuel + 1, state =>
    let p := randNext state 31
    let val := p.1 % bound
    if 2 ^ 31 ≤ p.1 - val + (bound - 1) then nextIntLoop bound fuel p.2
    else some val

/-- Modelled from the spec: `Random.NextInt(bound)` — a bit-shift
shortcut for a power-of-two bound, rejection sampling otherwise. -/
def nextInt (state : Nat) (bound : Nat) (fuel : Nat) : Option Nat :=
  if Nat.land bound (bound - 1) = 0 then
    some ((bound * (randNext state 31).1) >>> 31)
  else nextIntLoop bound fuel state

/-- Retry fuel used by the embedding of `CalcChunk` (the Go loop is
unbounded; 64 consecutive rejections is impossible in practice). -/
def calcFuel : Nat := 64

/-! ## The deterministic classifier (`World.CalcChunk`) -/

/-- A world seed, Go `type World int64`. -/
abbrev World := Int

/-- The multiplier of `x*x` in `CalcChunk` (`slime.go` line 16). -/
def kX2 : Int := 4987142

/-- The multiplier of `x` in `CalcChunk` (`slime.go` line 17). -/
def kX : Int := 5947611

/-- The multiplier of `z*z` in `CalcChunk` (`slime.go` line 18). -/
def kZ2 : Int := 4392871

/-- The multiplier of `z` in `CalcChunk` (`slime.go` line 19). -/
def kZ : Int := 389711

/-- The constant XORed onto the seed sum (`slime.go` line 20). -/
def kXor : Int := 987234911

/-- Embeds `World.CalcChunk` (`slime.go` lines 13–23): combine the world seed
with the chunk coordinates into a 64-bit scramble value, seed the
generator with it, draw one integer in `[0,10)` and return true iff the
draw is 0.  The chain of wrapping `int64` ops is modelled by one
`wrap64` of the exact sum (they are congruent mod `2^64`). -/
def World.CalcChunk (w : World) (x z : Int) : Bool :=
  let seed := wrap64 (w + x * x * kX2 + x * kX + z * z * kZ2 + z * kZ)
  let seed := xor64 seed kXor
  nextInt (randInit seed) 10 calcFuel = some 0

/-! ## Search results and the ordering predicate -/

/-- Embeds `SearchResult` (`slime.go` lines 80–83). -/
structure SearchResult where
  Count : Int
  X : Int
  Z : Int
deriving DecidableEq

/-- Embeds `needSwap` (`slime.go` lines 60–78): `needSwap a b` is true when a
result `a` sitting directly before `b` must be swapped after it.  The
distances `ad2`, `bd2` are computed in `int32` in Go (lines 67–68) and
wrap for coordinates of magnitude at least `46341`; the chain of
wrapping ops is modelled by one `wrap32` of the exact sum of squares
(they are congruent mod `2^32`). -/
def needSwap (a b : SearchResult) : Bool :=
  if a.Count ≠ b.Count then decide (a.Count < b.Count)
  else
    let ad2 := wrap32 (a.X * a.X + a.Z * a.Z)
    let bd2 := wrap32 (b.X * b.X + b.Z * b.Z)
    if ad2 ≠ bd2 then decide (ad2 > bd2)
    else if a.X ≠ b.X then decide (a.X > b.X)
    else decide (a.Z > b.Z)

/-! ## Masks and sections -/

/-- The external `Mask` capability: bounded width/height and a
membership predicate (`mask.Bounds()`, `mask.Query(x, z)`). -/
structure Mask where
  W : Int
  H : Int
  Query : Int → Int → Bool

/-- Embeds `mask.Bounds()`. -/
def Mask.Bounds (m : Mask) : Int × Int := (m.W, m.H)

/-- The section side length `SectionSize = 128` (`slime.go` line 9). -/
def SectionSize : Int := 128

/-- Embeds `Section` (`slime.go` lines 128–131): origin plus the dense boolean
buffer, the flat array `Slime [SectionSize*SectionSize]bool` modelled as
a total function on flat indices (Go zero-initialises it to `false`). -/
structure Section where
  X : Int
  Z : Int
  Slime : Nat → Bool

/-- Embeds `secIdx` (`slime.go` lines 171–175): the two asserts check only the
upper bounds `x < SectionSize` and `z < SectionSize`; a failed assert is
a panic, modelled as `Except.error`. -/
def secIdx (x z : Int) : Except String Int :=
  if ¬(x < SectionSize) then .error "x out of range"
  else if ¬(z < SectionSize) then .error "z out of range"
  else .ok (SectionSize * z + x)

/-- Embeds `Section.Set` (`slime.go` lines 177–179): a flat-array store;
indexing outside `[0, SectionSize*SectionSize)` is a Go runtime panic. -/
def Section.Set (sec : Section) (x z : Int) (v : Bool) : Except String Section := do
  let i ← secIdx x z
  if 0 ≤ i ∧ i < SectionSize * SectionSize then
    .ok { sec with Slime := fun j => if j = i.toNat then v else sec.Slime j }
  else .error "index out of range"

/-- Embeds `Section.Get` (`slime.go` lines 181–183): a flat-array load. -/
def Section.Get (sec : Section) (x z : Int) : Except String Bool := do
  let i ← secIdx x z
  if 0 ≤ i ∧ i < SectionSize * SectionSize then .ok (sec.Slime i.toNat)
  else .error "index out of range"

/-- The pure denotation of an in-range `Section.Get`. -/
def Section.GetP (sec : Section) (x z : Int) : Bool :=
  sec.Slime (SectionSize * z + x).toNat

/-- The pure denotation of an in-range `Section.Set`. -/
def Section.SetP (sec : Section) (x z : Int) (v : Bool) : Section :=
  { sec with Slime := fun j => if j = (SectionSize * z + x).toNat then v else sec.Slime j }

/-! ## Loop ranges -/

/-- The index list of a Go loop `for i := 0; i < n; i++` over `int32`. -/
def intRange (n : Int) : List Int := (List.range n.toNat).map Int.ofNat

/-- The `(x, z)` iteration order of a doubly nested Go loop with the `z`
loop outside (`h` rows) and the `x` loop inside (`w` columns), exactly
the order used by `Compute`, `Search` and `CheckMask`. -/
def cellList (h w : Int) : List (Int × Int) :=
  (intRange h).flatMap fun z => (intRange w).map fun x => (x, z)

/-- The start values of a Go loop `for x := x0; x < x1; x += shift`,
with a fuel bound on the iteration count (for `0 < shift` the loop takes
at most `(x1 - x0).toNat` steps, so the fuel never runs out where the
program calls this: `sendSections` uses `shift = 128 - m + 1 ≥ 2`,
the mask bound `m ≤ 127` being enforced before any section is made). -/
def tileStartsF (shift : Int) : Nat → Int → Int → List Int
  | 0, _, _ => []
  | fuel + 1, x0, x1 =>
    if x0 < x1 then x0 :: tileStartsF shift fuel (x0 + shift) x1 else []

/-- The list of loop start values of `for x := x0; x < x1; x += shift`. -/
def tileStarts (shift x0 x1 : Int) : List Int :=
  tileStartsF shift ((x1 - x0).toNat + 1) x0 x1

/-- Embeds `searchContext.sendSections` (`slime.go` lines 94–115): normalise
the rectangle, then tile it with stride `SectionSize - maskDim + 1` in
each axis; the descriptors are produced in row-major order (outer `x`,
inner `z`). -/
def sectionOrigins (m : Mask) (x0 z0 x1 z1 : Int) : List (Int × Int) :=
  let xs := if x0 > x1 then (x1, x0) else (x0, x1)
  let zs := if z0 > z1 then (z1, z0) else (z0, z1)
  let shiftX := SectionSize - m.W + 1
  let shiftZ := SectionSize - m.H + 1
  (tileStarts shiftX xs.1 xs.2).flatMap fun sx =>
    (tileStarts shiftZ zs.1 zs.2).map fun sz => (sx, sz)

/-! ## Section compute and search -/

/-- Embeds `Section.Compute` (`slime.go` lines 133–139): fill every cell of the
buffer from the classifier; the worker runs it on a fresh
`&Section{X: x, Z: z}` whose buffer is zeroed. -/
def Section.Compute (w : World) (sx sz : Int) : Except String Section :=
  (cellList SectionSize SectionSize).foldlM
    (fun s p => s.Set p.1 p.2 (World.CalcChunk w (s.X + p.1) (s.Z + p.2)))
    { X := sx, Z := sz, Slime := fun _ => false }

/-- Embeds `Section.CheckMask` (`slime.go` lines 159–169): count the cells of
the mask rectangle where the section cell is set and the mask predicate
holds (`sec.Get` is evaluated first, as in the Go `&&`). -/
def Section.CheckMask (sec : Section) (x0 z0 : Int) (m : Mask) : Except String Int :=
  (cellList m.H m.W).foldlM
    (fun count p => do
      let g ← sec.Get (p.1 + x0) (p.2 + z0)
      pure (if g && m.Query p.1 p.2 then count + 1 else count))
    0

/-- Embeds `Section.Search` (`slime.go` lines 141–157): slide the mask over all
offsets `0 ≤ x < SectionSize - w`, `0 ≤ z < SectionSize - h` and emit a
result (count, centre coordinate) whenever the count reaches the
threshold.  Go `int32` division truncates toward zero (`Int.tdiv`). -/
def Section.Search (sec : Section) (m : Mask) (threshold : Int) :
    Except String (List SearchResult) :=
  let offX := sec.X + Int.tdiv m.W 2
  let offZ := sec.Z + Int.tdiv m.H 2
  (cellList (SectionSize - m.H) (SectionSize - m.W)).foldlM
    (fun acc p => do
      let count ← sec.CheckMask p.1 p.2 m
      pure (if threshold ≤ count then
        acc ++ [{ Count := count, X := p.1 + offX, Z := p.2 + offZ }] else acc))
    []

/-! ### Pure denotations (proved equal to the monadic embedding) -/

/-- Pure denotation of `Section.CheckMask`. -/
def Section.CheckMaskP (sec : Section) (x0 z0 : Int) (m : Mask) : Int :=
  (cellList m.H m.W).foldl
    (fun count p =>
      if sec.GetP (p.1 + x0) (p.2 + z0) && m.Query p.1 p.2 then count + 1 else count)
    0

/-- Pure denotation of `Section.Search`. -/
def Section.SearchP (sec : Section) (m : Mask) (threshold : Int) : List SearchResult :=
  let offX := sec.X + Int.tdiv m.W 2
  let offZ := sec.Z + Int.tdiv m.H 2
  (cellList (SectionSize - m.H) (SectionSize - m.W)).foldl
    (fun acc p =>
      let count := sec.CheckMaskP p.1 p.2 m
      if threshold ≤ count then
        acc ++ [{ Count := count, X := p.1 + offX, Z := p.2 + offZ }] else acc)
    []

/-- Pure denotation of a computed section: cell `(x, z)` of the buffer
holds `CalcChunk w (sx + x) (sz + z)`. -/
def computedSection (w : World) (sx sz : Int) : Section :=
  { X := sx, Z := sz,
    Slime := fun i =>
      if i < 16384 then
        World.CalcChunk w (sx + ((i % 128 : Nat) : Int)) (sz + ((i / 128 : Nat) : Int))
      else false }

/-! ## The ranking merge and the top-level search -/

/-- One backward bubble pass of the merge (`slime.go` lines 47–55),
modelled on the reversed result list: starting from the tail, the new
element `e` moves past every neighbour `c` with `needSwap c e` and stops
at the first neighbour that needs no swap. -/
def insertRev (e : SearchResult) : List SearchResult → List SearchResult
  | [] => [e]
  | c :: rest => if needSwap c e then c :: insertRev e rest else e :: c :: rest

/-- Merging one arriving batch (`slime.go` lines 44–56): append the
batch and bubble each appended element backward, on the reversed list. -/
def mergeBatchRev (accRev : List SearchResult) (batch : List SearchResult) :
    List SearchResult :=
  batch.foldl (fun r e => insertRev e r) accRev

/-- The streaming merge of all arriving batches, in arrival order. -/
def mergeBatches (batches : List (List SearchResult)) : List SearchResult :=
  (batches.foldl mergeBatchRev []).reverse

/-- Extract the result list of a completed search (`[]` if it panicked). -/
def resultsOf (e : Except String (List SearchResult)) : List SearchResult :=
  match e with
  | .ok l => l
  | .error _ => []

/-- Embeds `World.Search` (`slime.go` lines 25–58): reject oversized masks,
then tile, compute and search every section and merge the non-empty
batches.  Workers may finish in any order; the embedding fixes the
canonical row-major schedule (see the determinism claim). -/
def World.Search (w : World) (x0 z0 x1 z1 : Int) (threshold : Int) (m : Mask) :
    Except String (List SearchResult) :=
  if SectionSize ≤ m.W ∨ SectionSize ≤ m.H then
    .error "Mask bounds exceed section size"
  else do
    let batches ← (sectionOrigins m x0 z0 x1 z1).mapM fun p => do
      let sec ← Section.Compute w p.1 p.2
      sec.Search m threshold
    pure (mergeBatches (batches.filter fun b => b ≠ []))

/-- Pure denotation of `World.Search` on the non-panicking path. -/
def World.SearchP (w : World) (x0 z0 x1 z1 : Int) (threshold : Int) (m : Mask) :
    List SearchResult :=
  mergeBatches
    (((sectionOrigins m x0 z0 x1 z1).map fun p =>
        (computedSection w p.1 p.2).SearchP m threshold).filter fun b => b ≠ [])


/-! ## Claim-side definitions -/

/-- Relation `resLe a b` holds when a result `a` may sit directly before `b`
without triggering a swap; the relation the merged list is sorted by. -/
def resLe (a b : SearchResult) : Prop := needSwap a b = false

/-- The squared distance of a result's coordinate from (0,0) as the
program computes it: in wrapping 32-bit arithmetic (`slime.go` lines
67–68).  It agrees with the exact squared Euclidean distance whenever
`|X|, |Z| < 46341` (no overflow). -/
def dist2 (r : SearchResult) : Int := wrap32 (r.X * r.X + r.Z * r.Z)

/-- The order actually implemented by `needSwap`, spelled out: higher
count first; among equal counts smaller program-computed (32-bit
wrapped) squared distance first; remaining ties by ascending `X`, then
ascending `Z`. -/
def ascPair (a b : SearchResult) : Prop :=
  b.Count < a.Count ∨ (a.Count = b.Count ∧ (dist2 a < dist2 b ∨ (dist2 a = dist2 b ∧
    (a.X < b.X ∨ (a.X = b.X ∧ a.Z ≤ b.Z)))))

/-- The sortedness predicate asserted by the original claim, with the
exact squared Euclidean distance and descending `X`, descending `Z` on
full ties (every adjacent pair must satisfy it). -/
def specSortedDesc : List SearchResult → Bool
  | [] => true
  | [_] => true
  | a :: b :: rest =>
    decide (b.Count < a.Count ∨ (a.Count = b.Count ∧
      (a.X * a.X + a.Z * a.Z < b.X * b.X + b.Z * b.Z ∨
        (a.X * a.X + a.Z * a.Z = b.X * b.X + b.Z * b.Z ∧
          (b.X < a.X ∨ (a.X = b.X ∧ b.Z ≤ a.Z)))))) &&
    specSortedDesc (b :: rest)

/-- The overlap count as the claims state it: the number of cells of the
mask rectangle `[0,w) × [0,h)` at which the section cell is set and the
mask predicate holds, for the placement with top-left corner `(x, z)`. -/
def overlapCount (sec : Section) (m : Mask) (x z : Int) : Int :=
  (((Finset.range m.W.toNat) ×ˢ (Finset.range m.H.toNat)).filter
    fun c => (sec.GetP ((c.1 : Int) + x) ((c.2 : Int) + z) && m.Query (c.1 : Int) (c.2 : Int))
      = true).card

/-- The classifier as the corrected claim words it: multiply x², x, z²
and z each by the four fixed constants, sum the products with the seed,
XOR the 64-bit sum with the fixed mask constant, seed the generator with
the scramble value, draw one bounded integer in `[0,10)`, and return
true exactly when the draw equals 0. -/
def calcChunkClaim (w x z : Int) : Bool :=
  let scramble := xor64 (wrap64 (w + (x * x * kX2 + x * kX + z * z * kZ2 + z * kZ))) kXor
  decide (nextInt (randInit scramble) 10 calcFuel = some 0)

/-- A section whose buffer is set exactly at flat index 127, i.e. at
cell `(127, 0)`; used to exhibit the unchecked negative-index aliasing
of `secIdx`. -/
def aliasSection : Section := { X := 0, Z := 0, Slime := fun i => i == 127 }

/-! ## Basic facts about the loop ranges -/

theorem mem_intRange {n i : Int} : i ∈ intRange n ↔ 0 ≤ i ∧ i < n := by
  simp only [intRange, List.mem_map, List.mem_range, Int.ofNat_eq_coe]
  constructor
  · rintro ⟨k, hk, rfl⟩
    omega
  · rintro ⟨h0, hn⟩
    exact ⟨i.toNat, by omega, by omega⟩

theorem mem_cellList {h w : Int} {p : Int × Int} :
    p ∈ cellList h w ↔ 0 ≤ p.1 ∧ p.1 < w ∧ 0 ≤ p.2 ∧ p.2 < h := by
  simp only [cellList, List.mem_flatMap, List.mem_map]
  constructor
  · rintro ⟨z, hz, x, hx, rfl⟩
    have h1 := mem_intRange.mp hz
    have h2 := mem_intRange.mp hx
    exact ⟨h2.1, h2.2, h1.1, h1.2⟩
  · rintro ⟨h1, h2, h3, h4⟩
    exact ⟨p.2, mem_intRange.mpr ⟨h3, h4⟩, p.1, mem_intRange.mpr ⟨h1, h2⟩, rfl⟩

theorem intRange_nil {n : Int} (h : n ≤ 0) : intRange n = [] := by
  simp [intRange, Int.toNat_of_nonpos h]

theorem cellList_nil_of_w {h w : Int} (hw : w ≤ 0) : cellList h w = [] := by
  simp [cellList, intRange_nil hw]

theorem cellList_nil_of_h {h w : Int} (hh : h ≤ 0) : cellList h w = [] := by
  simp [cellList, intRange_nil hh]

theorem tileStarts_self {s a : Int} : tileStarts s a a = [] := by
  simp only [tileStarts, sub_self, Int.toNat_zero, tileStartsF]
  rw [if_neg (lt_irrefl a)]

/-! ## The ordering predicate is a total order -/

theorem needSwap_irrefl (a : SearchResult) : needSwap a a = false := by
  simp [needSwap]

theorem needSwap_asymm (a b : SearchResult) :
    needSwap a b = true → needSwap b a = false := by
  obtain ⟨ca, xa, za⟩ := a
  obtain ⟨cb, xb, zb⟩ := b
  simp only [needSwap]
  generalize wrap32 (xa * xa + za * za) = A
  generalize wrap32 (xb * xb + zb * zb) = B
  split_ifs <;> simp <;> omega

theorem needSwap_total (a b : SearchResult) :
    needSwap a b = false ∨ needSwap b a = false := by
  rcases hab : needSwap a b with _ | _
  · exact .inl rfl
  · exact .inr (needSwap_asymm a b hab)

theorem needSwap_not_trans (a b c : SearchResult) :
    needSwap a b = false → needSwap b c = false → needSwap a c = false := by
  obtain ⟨ca, xa, za⟩ := a
  obtain ⟨cb, xb, zb⟩ := b
  obtain ⟨cc, xc, zc⟩ := c
  simp only [needSwap]
  generalize wrap32 (xa * xa + za * za) = A
  generalize wrap32 (xb * xb + zb * zb) = B
  generalize wrap32 (xc * xc + zc * zc) = C
  split_ifs <;> simp <;> omega

theorem needSwap_eq_of_not_both (a b : SearchResult) :
    needSwap a b = false → needSwap b a = false → a = b := by
  obtain ⟨ca, xa, za⟩ := a
  obtain ⟨cb, xb, zb⟩ := b
  simp only [needSwap, SearchResult.mk.injEq]
  generalize wrap32 (xa * xa + za * za) = A
  generalize wrap32 (xb * xb + zb * zb) = B
  split_ifs <;> simp <;> omega

/-! ## The insertion merge: permutation and sortedness -/

theorem insertRev_perm (e : SearchResult) (M : List SearchResult) :
    insertRev e M ~ e :: M := by
  induction M with
  | nil => rfl
  | cons c rest ih =>
    by_cases hc : needSwap c e = true
    · rw [insertRev, if_pos hc]
      exact (ih.cons c).trans (List.Perm.swap e c rest)
    · rw [insertRev, if_neg hc]

theorem insertRev_pairwise (e : SearchResult) (M : List SearchResult)
    (hM : M.Pairwise fun q p => resLe p q) :
    (insertRev e M).Pairwise fun q p => resLe p q := by
  induction M with
  | nil => simp [insertRev, List.pairwise_singleton]
  | cons c rest ih =>
    rw [List.pairwise_cons] at hM
    obtain ⟨hc_rest, hrest⟩ := hM
    by_cases hc : needSwap c e = true
    · rw [insertRev, if_pos hc]
      refine List.pairwise_cons.mpr ⟨?_, ih hrest⟩
      intro p hp
      rcases List.mem_cons.mp ((insertRev_perm e rest).mem_iff.mp hp) with rfl | hpr
      · exact needSwap_asymm c _ hc
      · exact hc_rest p hpr
    · rw [insertRev, if_neg hc]
      rw [Bool.not_eq_true] at hc
      refine List.pairwise_cons.mpr ⟨?_, List.pairwise_cons.mpr ⟨hc_rest, hrest⟩⟩
      intro p hp
      rcases List.mem_cons.mp hp with hpc | hpr
      · subst hpc
        exact hc
      · exact needSwap_not_trans _ _ _ (hc_rest p hpr) hc

theorem mergeBatchRev_perm (acc batch : List SearchResult) :
    mergeBatchRev acc batch ~ batch ++ acc := by
  induction batch generalizing acc with
  | nil => rfl
  | cons e bs ih =>
    calc mergeBatchRev acc (e :: bs)
        = mergeBatchRev (insertRev e acc) bs := rfl
      _ ~ bs ++ insertRev e acc := ih _
      _ ~ bs ++ (e :: acc) := ((insertRev_perm e acc).append_left bs)
      _ ~ e :: (bs ++ acc) := (List.perm_middle)
      _ = (e :: bs) ++ acc := rfl

theorem mergeBatchRev_pairwise (acc batch : List SearchResult)
    (hacc : acc.Pairwise fun q p => resLe p q) :
    (mergeBatchRev acc batch).Pairwise fun q p => resLe p q := by
  induction batch generalizing acc with
  | nil => exact hacc
  | cons e bs ih => exact ih _ (insertRev_pairwise e acc hacc)

theorem mergeBatches_perm (batches : List (List SearchResult)) :
    mergeBatches batches ~ batches.flatten := by
  have key : ∀ (bs : List (List SearchResult)) (acc : List SearchResult),
      bs.foldl mergeBatchRev acc ~ bs.flatten ++ acc := by
    intro bs
    induction bs with
    | nil => intro acc; simp
    | cons b rest ih =>
      intro acc
      calc (b :: rest).foldl mergeBatchRev acc
          = rest.foldl mergeBatchRev (mergeBatchRev acc b) := rfl
        _ ~ rest.flatten ++ mergeBatchRev acc b := ih _
        _ ~ rest.flatten ++ (b ++ acc) := ((mergeBatchRev_perm acc b).append_left _)
        _ ~ (b ++ rest.flatten) ++ acc := by
            rw [← List.append_assoc]
            exact ((List.perm_append_comm).append_right acc)
        _ = (b :: rest).flatten ++ acc := by simp
  calc mergeBatches batches
      = (batches.foldl mergeBatchRev []).reverse := rfl
    _ ~ batches.foldl mergeBatchRev [] := (List.reverse_perm _)
    _ ~ batches.flatten ++ [] := key batches []
    _ = batches.flatten := by simp

theorem mergeBatches_sorted (batches : List (List SearchResult)) :
    (mergeBatches batches).Sorted resLe := by
  have key : (batches.foldl mergeBatchRev []).Pairwise fun q p => resLe p q := by
    have start : ([] : List SearchResult).Pairwise fun q p => resLe p q := List.Pairwise.nil
    generalize ([] : List SearchResult) = acc at start ⊢
    induction batches generalizing acc with
    | nil => exact start
    | cons b rest ih => exact ih _ (mergeBatchRev_pairwise acc b start)
  exact List.pairwise_reverse.mpr key

/-! ## From the panic-propagating embedding to its pure denotation -/

theorem exceptBind_ok {α β : Type} (a : α) (g : α → Except String β) :
    (Except.ok a : Except String α) >>= g = g a := rfl

theorem foldlM_except_ok {α β : Type} (L : List α) (f? : β → α → Except String β)
    (f : β → α → β) (h : ∀ b a, a ∈ L → f? b a = .ok (f b a)) :
    ∀ b, L.foldlM f? b = .ok (L.foldl f b) := by
  induction L with
  | nil => intro b; rfl
  | cons x xs ih =>
    intro b
    rw [List.foldlM_cons, h b x (List.mem_cons_self x xs), exceptBind_ok, List.foldl_cons]
    exact ih (fun b a ha => h b a (List.mem_cons_of_mem x ha)) (f b x)

theorem mapM_except_ok {α β : Type} (L : List α) (f? : α → Except String β) (f : α → β)
    (h : ∀ a ∈ L, f? a = .ok (f a)) : L.mapM f? = .ok (L.map f) := by
  induction L with
  | nil => rfl
  | cons x xs ih =>
    rw [List.mapM_cons, h x (List.mem_cons_self x xs), exceptBind_ok,
      ih fun a ha => h a (List.mem_cons_of_mem x ha), exceptBind_ok]
    rfl

theorem get_ok (sec : Section) {x z : Int} (hx0 : 0 ≤ x) (hx : x < 128)
    (hz0 : 0 ≤ z) (hz : z < 128) : sec.Get x z = .ok (sec.GetP x z) := by
  simp only [Section.Get, secIdx, SectionSize, Section.GetP]
  rw [if_neg (by omega), if_neg (by omega), exceptBind_ok, if_pos (by omega)]

theorem set_ok (sec : Section) {x z : Int} (v : Bool) (hx0 : 0 ≤ x) (hx : x < 128)
    (hz0 : 0 ≤ z) (hz : z < 128) : sec.Set x z v = .ok (sec.SetP x z v) := by
  simp only [Section.Set, secIdx, SectionSize, Section.SetP]
  rw [if_neg (by omega), if_neg (by omega), exceptBind_ok, if_pos (by omega)]

theorem checkMask_ok (sec : Section) (m : Mask) {x0 z0 : Int}
    (hx0 : 0 ≤ x0) (hz0 : 0 ≤ z0) (hx1 : x0 + m.W ≤ 128) (hz1 : z0 + m.H ≤ 128) :
    sec.CheckMask x0 z0 m = .ok (sec.CheckMaskP x0 z0 m) := by
  simp only [Section.CheckMask, Section.CheckMaskP]
  apply foldlM_except_ok
  intro c p hp
  obtain ⟨h1, h2, h3, h4⟩ := mem_cellList.mp hp
  rw [get_ok sec (by omega) (by omega) (by omega) (by omega), exceptBind_ok]
  rfl

theorem search_ok (sec : Section) (m : Mask) (t : Int) :
    sec.Search m t = .ok (sec.SearchP m t) := by
  simp only [Section.Search, Section.SearchP, SectionSize]
  apply foldlM_except_ok
  intro acc p hp
  obtain ⟨h1, h2, h3, h4⟩ := mem_cellList.mp hp
  rw [checkMask_ok sec m (by omega) (by omega) (by omega) (by omega), exceptBind_ok]
  rfl

theorem setP_X (sec : Section) (x z : Int) (v : Bool) : (sec.SetP x z v).X = sec.X := rfl

theorem setP_Z (sec : Section) (x z : Int) (v : Bool) : (sec.SetP x z v).Z = sec.Z := rfl

theorem foldSetP_X (w : World) (L : List (Int × Int)) : ∀ sec : Section,
    (L.foldl (fun s p => s.SetP p.1 p.2 (World.CalcChunk w (s.X + p.1) (s.Z + p.2))) sec).X
      = sec.X := by
  induction L with
  | nil => intro sec; rfl
  | cons p L ih => intro sec; rw [List.foldl_cons, ih]; rfl

theorem foldSetP_Z (w : World) (L : List (Int × Int)) : ∀ sec : Section,
    (L.foldl (fun s p => s.SetP p.1 p.2 (World.CalcChunk w (s.X + p.1) (s.Z + p.2))) sec).Z
      = sec.Z := by
  induction L with
  | nil => intro sec; rfl
  | cons p L ih => intro sec; rw [List.foldl_cons, ih]; rfl

theorem foldSetP_slime (w : World) (L : List (Int × Int))
    (hL : ∀ p ∈ L, 0 ≤ p.1 ∧ p.1 < 128 ∧ 0 ≤ p.2 ∧ p.2 < 128) :
    ∀ (sec : Section) (i : Nat),
      (L.foldl (fun s p => s.SetP p.1 p.2 (World.CalcChunk w (s.X + p.1) (s.Z + p.2)))
          sec).Slime i
        = if ∃ p ∈ L, (128 * p.2 + p.1).toNat = i then
            World.CalcChunk w (sec.X + ((i % 128 : Nat) : Int)) (sec.Z + ((i / 128 : Nat) : Int))
          else sec.Slime i := by
  induction L with
  | nil =>
    intro sec i
    simp
  | cons p L ih =>
    intro sec i
    have hp := hL p (List.mem_cons_self p L)
    have hLrest : ∀ q ∈ L, 0 ≤ q.1 ∧ q.1 < 128 ∧ 0 ≤ q.2 ∧ q.2 < 128 :=
      fun q hq => hL q (List.mem_cons_of_mem p hq)
    rw [List.foldl_cons, ih hLrest]
    by_cases hex : ∃ q ∈ L, (128 * q.2 + q.1).toNat = i
    · rw [if_pos hex, setP_X, setP_Z,
        if_pos (by obtain ⟨q, hq, hqi⟩ := hex; exact ⟨q, List.mem_cons_of_mem p hq, hqi⟩)]
    · rw [if_neg hex]
      simp only [Section.SetP, SectionSize]
      by_cases hip : i = (128 * p.2 + p.1).toNat
      · rw [if_pos hip, if_pos ⟨p, List.mem_cons_self p L, hip.symm⟩]
        have e1 : p.1 = ((i % 128 : Nat) : Int) := by omega
        have e2 : p.2 = ((i / 128 : Nat) : Int) := by omega
        rw [e1, e2]
      · rw [if_neg hip,
          if_neg (by
            rintro ⟨q, hq, hqi⟩
            rcases List.mem_cons.mp hq with rfl | hq'
            · exact hip hqi.symm
            · exact hex ⟨q, hq', hqi⟩)]

theorem sectionExt {a b : Section} (h1 : a.X = b.X) (h2 : a.Z = b.Z)
    (h3 : ∀ i, a.Slime i = b.Slime i) : a = b := by
  obtain ⟨ax, az, as0⟩ := a
  obtain ⟨bx, bz, bs0⟩ := b
  simp only at h1 h2 h3
  subst h1 h2
  simp only [Section.mk.injEq, true_and]
  exact funext h3

theorem compute_eq (w : World) (sx sz : Int) :
    Section.Compute w sx sz = .ok (computedSection w sx sz) := by
  have hcells : ∀ p ∈ cellList SectionSize SectionSize,
      0 ≤ p.1 ∧ p.1 < 128 ∧ 0 ≤ p.2 ∧ p.2 < 128 := by
    intro p hp
    have := mem_cellList.mp hp
    simp only [SectionSize] at this
    exact ⟨this.1, this.2.1, this.2.2.1, this.2.2.2⟩
  unfold Section.Compute
  rw [foldlM_except_ok _ _
    (fun s p => s.SetP p.1 p.2 (World.CalcChunk w (s.X + p.1) (s.Z + p.2)))
    (fun s p hp => by
      obtain ⟨h1, h2, h3, h4⟩ := hcells p hp
      exact set_ok s _ (by omega) (by omega) (by omega) (by omega))]
  refine congrArg Except.ok ?_
  apply sectionExt
  · rw [foldSetP_X]; rfl
  · rw [foldSetP_Z]; rfl
  · intro i
    rw [foldSetP_slime w _ hcells]
    by_cases hi : i < 16384
    · rw [if_pos ?_]
      · simp only [computedSection]
        rw [if_pos hi]
      · exact ⟨(((i % 128 : Nat) : Int), ((i / 128 : Nat) : Int)),
          mem_cellList.mpr (by simp only [SectionSize]; omega), by omega⟩
    · rw [if_neg ?_]
      · simp only [computedSection]
        rw [if_neg hi]
      · rintro ⟨q, hq, hqi⟩
        have := mem_cellList.mp hq
        simp only [SectionSize] at this
        omega

theorem world_search_ok (w : World) (x0 z0 x1 z1 t : Int) (m : Mask)
    (hw : m.W < 128) (hh : m.H < 128) :
    World.Search w x0 z0 x1 z1 t m = .ok (World.SearchP w x0 z0 x1 z1 t m) := by
  unfold World.Search World.SearchP
  rw [if_neg (by simp only [SectionSize]; omega)]
  rw [mapM_except_ok _ _
    (fun p => (computedSection w p.1 p.2).SearchP m t)
    (fun p _ => by rw [compute_eq, exceptBind_ok, search_ok]),
    exceptBind_ok]
  rfl

/-! ## Claim-side formulations of the ordering and the overlap count -/

theorem resultsOf_ok (l : List SearchResult) :
    resultsOf (.ok l) = l := rfl

theorem needSwap_false_iff (a b : SearchResult) :
    needSwap a b = false ↔ ascPair a b := by
  obtain ⟨ca, xa, za⟩ := a
  obtain ⟨cb, xb, zb⟩ := b
  simp only [needSwap, ascPair, dist2]
  generalize wrap32 (xa * xa + za * za) = A
  generalize wrap32 (xb * xb + zb * zb) = B
  split_ifs <;> simp <;> omega

theorem countP_range (n : Nat) (q : Nat → Bool) :
    (List.range n).countP q = ∑ i ∈ Finset.range n, if q i then 1 else 0 := by
  induction n with
  | zero => rfl
  | succ k ih =>
    rw [List.range_succ, List.countP_append, Finset.sum_range_succ, ih]
    simp [List.countP_cons]

theorem countP_intRange (n : Int) (q : Int → Bool) :
    (intRange n).countP q = ∑ i ∈ Finset.range n.toNat, if q (i : Int) then 1 else 0 := by
  rw [intRange, List.countP_map, countP_range]
  rfl

theorem countP_flatMap_rows {α : Type} (L : List α) (g : α → List (Int × Int))
    (p : Int × Int → Bool) :
    (L.flatMap g).countP p = (L.map fun a => (g a).countP p).sum := by
  induction L with
  | nil => rfl
  | cons a L ih =>
    rw [List.flatMap_cons, List.countP_append, List.map_cons, List.sum_cons, ih]

theorem sum_map_intRange (n : Int) (g : Int → Nat) :
    ((intRange n).map g).sum = ∑ i ∈ Finset.range n.toNat, g (i : Int) := by
  rw [intRange, List.map_map]
  induction n.toNat with
  | zero => rfl
  | succ k ih =>
    rw [List.range_succ, List.map_append, List.sum_append, Finset.sum_range_succ, ih]
    simp

theorem countP_cellList (h w : Int) (p : Int × Int → Bool) :
    (cellList h w).countP p
      = ∑ z ∈ Finset.range h.toNat, ∑ x ∈ Finset.range w.toNat,
          if p ((x : Int), (z : Int)) then 1 else 0 := by
  rw [cellList, countP_flatMap_rows]
  have : ∀ z : Int, ((intRange w).map fun x => (x, z)).countP p
      = ∑ x ∈ Finset.range w.toNat, if p ((x : Int), z) then 1 else 0 := by
    intro z
    rw [List.countP_map, countP_intRange]
    rfl
  calc ((intRange h).map fun z => ((intRange w).map fun x => (x, z)).countP p).sum
      = ((intRange h).map fun z =>
          ∑ x ∈ Finset.range w.toNat, if p ((x : Int), z) then 1 else 0).sum := by
        simp only [this]
    _ = ∑ z ∈ Finset.range h.toNat, ∑ x ∈ Finset.range w.toNat,
          if p ((x : Int), (z : Int)) then 1 else 0 := sum_map_intRange _ _

theorem foldl_count {α : Type} (L : List α) (p : α → Bool) :
    ∀ c0 : Int, L.foldl (fun c a => if p a then c + 1 else c) c0 = c0 + (L.countP p : Int) := by
  induction L with
  | nil => intro c0; simp
  | cons a L ih =>
    intro c0
    rw [List.foldl_cons, List.countP_cons]
    by_cases hp : p a = true
    · rw [if_pos hp, ih, if_pos hp]
      push_cast
      ring
    · rw [if_neg hp, ih, if_neg hp]
      push_cast
      ring

theorem checkMaskP_eq_overlap (sec : Section) (m : Mask) (x z : Int) :
    sec.CheckMaskP x z m = overlapCount sec m x z := by
  rw [Section.CheckMaskP, foldl_count, overlapCount, Finset.card_filter]
  rw [Finset.sum_product]
  rw [countP_cellList]
  rw [Finset.sum_comm]
  norm_num

theorem foldl_filterMap {α β : Type} (L : List α) (cond : α → Prop) [DecidablePred cond]
    (r : α → β) : ∀ acc0 : List β,
    L.foldl (fun acc p => if cond p then acc ++ [r p] else acc) acc0
      = acc0 ++ L.filterMap fun p => if cond p then some (r p) else none := by
  induction L with
  | nil => intro acc0; simp
  | cons a L ih =>
    intro acc0
    rw [List.foldl_cons]
    by_cases hc : cond a
    · rw [if_pos hc, ih, List.filterMap_cons, if_pos hc]
      simp
    · rw [if_neg hc, ih, List.filterMap_cons, if_neg hc]

theorem mem_searchP (sec : Section) (m : Mask) (t : Int) (r : SearchResult) :
    r ∈ sec.SearchP m t ↔
      ∃ p ∈ cellList (SectionSize - m.H) (SectionSize - m.W),
        t ≤ sec.CheckMaskP p.1 p.2 m ∧
        r = { Count := sec.CheckMaskP p.1 p.2 m,
              X := p.1 + (sec.X + Int.tdiv m.W 2),
              Z := p.2 + (sec.Z + Int.tdiv m.H 2) } := by
  simp only [Section.SearchP]
  have hfm := foldl_filterMap (cellList (SectionSize - m.H) (SectionSize - m.W))
    (fun p : Int × Int => t ≤ sec.CheckMaskP p.1 p.2 m)
    (fun p : Int × Int =>
      ({ Count := sec.CheckMaskP p.1 p.2 m,
         X := p.1 + (sec.X + Int.tdiv m.W 2),
         Z := p.2 + (sec.Z + Int.tdiv m.H 2) } : SearchResult)) []
  simp only [] at hfm
  rw [hfm, List.nil_append, List.mem_filterMap]
  constructor
  · rintro ⟨p, hp, hsome⟩
    by_cases hc : t ≤ sec.CheckMaskP p.1 p.2 m
    · rw [if_pos hc, Option.some.injEq] at hsome
      exact ⟨p, hp, hc, hsome.symm⟩
    · rw [if_neg hc] at hsome
      cases hsome
  · rintro ⟨p, hp, hc, rfl⟩
    exact ⟨p, hp, by rw [if_pos hc]⟩

/-! ## Claim theorems -/

/-- C7: the ordering predicate `needSwap` induces a strict weak ordering
on `SearchResult`: for every pair `(a,b)`, `needSwap a b` and
`needSwap b a` are never both true, `needSwap a a` is false, and both
being false forces `a` and `b` to agree on `Count`, `X` and `Z` — so
exactly one of before / after / equal holds for any pair. -/
theorem claim7_needSwap_strict_weak_order :
    (∀ a b : SearchResult, ¬(needSwap a b = true ∧ needSwap b a = true)) ∧
    (∀ a : SearchResult, needSwap a a = false) ∧
    (∀ a b : SearchResult, needSwap a b = false → needSwap b a = false →
      a.Count = b.Count ∧ a.X = b.X ∧ a.Z = b.Z) := by
  refine ⟨?_, needSwap_irrefl, ?_⟩
  · rintro a b ⟨h1, h2⟩
    rw [needSwap_asymm a b h1] at h2
    exact Bool.false_ne_true h2
  · intro a b h1 h2
    rw [needSwap_eq_of_not_both a b h1 h2]
    exact ⟨rfl, rfl, rfl⟩

/-- C6: the insertion merge is deterministic in the batch arrival order:
any two batch sequences carrying the same results (a permutation of the
same batches, with arbitrary order inside each batch) merge to the same
output list. -/
theorem claim6_merge_arrival_order_irrelevant (b1 b2 : List (List SearchResult))
    (h : b1.flatten ~ b2.flatten) : mergeBatches b1 = mergeBatches b2 :=
  @List.eq_of_perm_of_sorted _ resLe ⟨fun a b => needSwap_eq_of_not_both a b⟩ _ _
    ((mergeBatches_perm b1).trans (h.trans (mergeBatches_perm b2).symm))
    (mergeBatches_sorted b1) (mergeBatches_sorted b2)

theorem claim6_witness :
    mergeBatches [[⟨1, 0, 0⟩], [⟨2, 3, 4⟩]] = mergeBatches [[⟨2, 3, 4⟩, ⟨1, 0, 0⟩]] :=
  claim6_merge_arrival_order_irrelevant _ _ (by decide)

/-- C9: under the precondition that the mask's bounds are below the
section size, a run of `World.Search` never fails: every buffer access
performed by `Compute`, `Search` and `CheckMask` is in range and the
assertion branches of `secIdx` are unreachable (any violated assert or
out-of-range index would surface as `.error`). -/
theorem claim9_buffer_accesses_in_range (w x0 z0 x1 z1 t : Int) (m : Mask)
    (hw : m.W < SectionSize) (hh : m.H < SectionSize) :
    ∃ L, World.Search w x0 z0 x1 z1 t m = .ok L :=
  ⟨_, world_search_ok w x0 z0 x1 z1 t m
    (by simpa [SectionSize] using hw) (by simpa [SectionSize] using hh)⟩

theorem claim9_witness :
    ((1 : Int) < SectionSize ∧ (1 : Int) < SectionSize) ∧
    ∃ L, World.Search 1 0 0 0 0 1 { W := 1, H := 1, Query := fun _ _ => true } = .ok L :=
  ⟨⟨by decide, by decide⟩,
    claim9_buffer_accesses_in_range 1 0 0 0 0 1 _ (by decide) (by decide)⟩

/-- C10: for a mask passing the bounds check, a search rectangle that is
degenerate in either axis after normalisation produces no section
descriptor, and `World.Search` returns the empty result list. -/
theorem claim10_degenerate_rectangle (w t x0 z0 x1 z1 : Int) (m : Mask)
    (hw : m.W < SectionSize) (hh : m.H < SectionSize)
    (hdeg : x0 = x1 ∨ z0 = z1) :
    sectionOrigins m x0 z0 x1 z1 = [] ∧ World.Search w x0 z0 x1 z1 t m = .ok [] := by
  have horig : sectionOrigins m x0 z0 x1 z1 = [] := by
    unfold sectionOrigins
    rcases hdeg with rfl | rfl
    · simp [ite_self, tileStarts_self]
    · simp [ite_self, tileStarts_self]
  refine ⟨horig, ?_⟩
  rw [world_search_ok w x0 z0 x1 z1 t m
    (by simpa [SectionSize] using hw) (by simpa [SectionSize] using hh)]
  have hP : World.SearchP w x0 z0 x1 z1 t m = [] := by
    unfold World.SearchP
    rw [horig]
    rfl
  rw [hP]

theorem claim10_witness :
    sectionOrigins { W := 1, H := 1, Query := fun _ _ => true } 0 0 0 5 = [] ∧
    World.Search 0 0 0 0 5 1 { W := 1, H := 1, Query := fun _ _ => true } = .ok [] :=
  claim10_degenerate_rectangle 0 1 0 0 0 5 _ (by decide) (by decide) (.inl rfl)

/-- C5: a mask with width or height at least the section size makes
`World.Search` fail with the invariant-violation panic before any
section is produced or searched; `Section.Search` itself performs no
such check (on such a mask it quietly iterates over no placements), so
the check happens once per invocation, in `World.Search` alone. -/
theorem claim5_oversized_mask_rejected (w x0 z0 x1 z1 t : Int) (m : Mask) (sec : Section)
    (h : SectionSize ≤ m.W ∨ SectionSize ≤ m.H) :
    World.Search w x0 z0 x1 z1 t m = .error "Mask bounds exceed section size" ∧
    sec.Search m t = .ok [] := by
  constructor
  · unfold World.Search
    rw [if_pos h]
  · simp only [Section.Search]
    have hnil : cellList (SectionSize - m.H) (SectionSize - m.W) = [] := by
      rcases h with h | h
      · exact cellList_nil_of_w (by omega)
      · exact cellList_nil_of_h (by omega)
    rw [hnil]
    rfl

theorem claim5_witness :
    World.Search 0 0 0 9 9 0 { W := 128, H := 1, Query := fun _ _ => true }
        = .error "Mask bounds exceed section size" ∧
    Section.Search { X := 0, Z := 0, Slime := fun _ => false }
        { W := 128, H := 1, Query := fun _ _ => true } 0 = .ok [] :=
  claim5_oversized_mask_rejected 0 0 0 9 9 0 _ _ (.inl (by decide))

/-- C3 counterexample: the claim calls the four multipliers of
`CalcChunk` "distinct large odd constants", but the `x²` multiplier
`kX2 = 4987142` is even, so they are not all odd. -/
theorem claim3_cex_constant_not_odd : ¬(Odd kX2 ∧ Odd kX ∧ Odd kZ2 ∧ Odd kZ) := by
  rintro ⟨⟨k, hk⟩, -, -, -⟩
  simp only [kX2] at hk
  omega

/-- C3 amended: the classifier scrambles the seed exactly as the claim
describes — products of x², x, z², z with four fixed distinct large
constants (three odd, the x² one even), summed with the seed and XORed
with the fixed mask constant — then seeds the generator, draws one
bounded integer in `[0,10)`, and returns true exactly when the draw is
0. -/
theorem claim3_classifier_structure :
    (∀ w x z : Int, World.CalcChunk w x z = calcChunkClaim w x z) ∧
    List.Pairwise (· ≠ ·) [kX2, kX, kZ2, kZ] ∧
    Even kX2 ∧ Odd kX ∧ Odd kZ2 ∧ Odd kZ := by
  refine ⟨fun w x z => ?_, ?_, ⟨2493571, by decide⟩, ⟨2973805, by decide⟩,
    ⟨2196435, by decide⟩, ⟨194855, by decide⟩⟩
  · simp only [World.CalcChunk, calcChunkClaim]
    have h : w + x * x * kX2 + x * kX + z * z * kZ2 + z * kZ
        = w + (x * x * kX2 + x * kX + z * z * kZ2 + z * kZ) := by ring
    rw [h]
  · simp only [kX2, kX, kZ2, kZ]
    decide

/-- C8 counterexample: `Get` at the out-of-range index `(-1, 1)` does
not fail — the asserts only check the upper bounds — and silently reads
the buffer cell at flat index `128*1 + (-1) = 127`, which is cell
`(127, 0)`: the only set cell of `aliasSection`. -/
theorem claim8_cex_negative_index_aliases :
    Section.Get aliasSection (-1) 1 = .ok true ∧
    Section.GetP aliasSection 127 0 = true := ⟨rfl, rfl⟩

/-- C8 amended: buffer accesses beyond the upper bounds
(`x ≥ 128` or `z ≥ 128`) do fail fast with an invariant-violation
error, for both `Get` and `Set`; negative indices are not guarded (see
the counterexample). -/
theorem claim8_upper_bound_asserts (sec : Section) (x z : Int) (v : Bool)
    (h : SectionSize ≤ x ∨ SectionSize ≤ z) :
    (∃ e, sec.Get x z = .error e) ∧ (∃ e, sec.Set x z v = .error e) := by
  by_cases hx : x < SectionSize
  · have hz : ¬(z < SectionSize) := by
      rcases h with h | h
      · omega
      · omega
    refine ⟨⟨"z out of range", ?_⟩, ⟨"z out of range", ?_⟩⟩
    · simp only [Section.Get, secIdx]
      rw [if_neg (not_not_intro hx), if_pos hz]
      rfl
    · simp only [Section.Set, secIdx]
      rw [if_neg (not_not_intro hx), if_pos hz]
      rfl
  · refine ⟨⟨"x out of range", ?_⟩, ⟨"x out of range", ?_⟩⟩
    · simp only [Section.Get, secIdx]
      rw [if_pos hx]
      rfl
    · simp only [Section.Set, secIdx]
      rw [if_pos hx]
      rfl

theorem claim8_witness :
    (∃ e, Section.Get { X := 0, Z := 0, Slime := fun _ => false } 128 0 = .error e) ∧
    (∃ e, Section.Set { X := 0, Z := 0, Slime := fun _ => false } 128 0 true = .error e) :=
  claim8_upper_bound_asserts _ 128 0 true (.inl (by decide))

/-- C1: with a 1×1 mask and the rectangle `(0,0)-(256,256)`, the
placement `(127, 0)` lies inside a tiled section's covered cells (so
the mask fully fits inside the union of covered grid cells), yet no
produced section tests it: sections search placements only with offsets
strictly below `SectionSize - w`, while the tiling stride is
`SectionSize - w + 1`, leaving a one-column gap at every seam.  A
brute-force single giant section over the same rectangle would test it. -/
theorem claim1_seam_placement_skipped :
    (∃ p ∈ sectionOrigins { W := 1, H := 1, Query := fun _ _ => true } 0 0 256 256,
        p.1 ≤ 127 ∧ 127 < p.1 + SectionSize ∧ p.2 ≤ 0 ∧ 0 < p.2 + SectionSize) ∧
    ∀ p ∈ sectionOrigins { W := 1, H := 1, Query := fun _ _ => true } 0 0 256 256,
      (127 - p.1, 0 - p.2) ∉ cellList (SectionSize - 1) (SectionSize - 1) := by
  have horig : sectionOrigins { W := 1, H := 1, Query := fun _ _ => true } 0 0 256 256
      = [(0, 0), (0, 128), (128, 0), (128, 128)] := by decide
  constructor
  · exact ⟨(0, 0), by rw [horig]; decide, by decide⟩
  · intro p hp
    rw [horig] at hp
    intro hmem
    have hm := mem_cellList.mp hmem
    simp only [SectionSize] at hm
    simp only [List.mem_cons, List.not_mem_nil, or_false] at hp
    rcases hp with rfl | rfl | rfl | rfl <;> simp only at hm <;> omega

/-- C4: for any section, any mask with bounds `0 ≤ w,h < 128` and any
threshold `t`, `Section.Search` emits a result for the placement offset
`(x, z)` exactly when `0 ≤ x < 128 - w`, `0 ≤ z < 128 - h` and the
overlap count — the number of mask cells at which the mask predicate
and the section buffer are both true — is at least `t`; the emitted
result carries that exact count and the centre coordinate
`(X + x + w/2, Z + z + h/2)` (Go division truncating).  In particular a
placement with count exactly `t` is included and count `t - 1` is
excluded. -/
theorem claim4_section_search_semantics (sec : Section) (m : Mask) (t : Int)
    (r : SearchResult) (hw0 : 0 ≤ m.W) (hw : m.W < SectionSize)
    (hh0 : 0 ≤ m.H) (hh : m.H < SectionSize) :
    r ∈ resultsOf (sec.Search m t) ↔
      ∃ x z : Int, 0 ≤ x ∧ x < SectionSize - m.W ∧ 0 ≤ z ∧ z < SectionSize - m.H ∧
        t ≤ overlapCount sec m x z ∧
        r = { Count := overlapCount sec m x z,
              X := sec.X + x + Int.tdiv m.W 2,
              Z := sec.Z + z + Int.tdiv m.H 2 } := by
  rw [search_ok, resultsOf_ok, mem_searchP]
  constructor
  · rintro ⟨p, hp, hc, rfl⟩
    obtain ⟨h1, h2, h3, h4⟩ := mem_cellList.mp hp
    refine ⟨p.1, p.2, h1, h2, h3, h4,
      by rw [← checkMaskP_eq_overlap]; exact hc, ?_⟩
    simp only [SearchResult.mk.injEq]
    exact ⟨checkMaskP_eq_overlap sec m p.1 p.2, by ring, by ring⟩
  · rintro ⟨x, z, h1, h2, h3, h4, hc, rfl⟩
    refine ⟨(x, z), mem_cellList.mpr ⟨h1, h2, h3, h4⟩,
      by rw [checkMaskP_eq_overlap]; exact hc, ?_⟩
    simp only [SearchResult.mk.injEq]
    exact ⟨(checkMaskP_eq_overlap sec m x z).symm, by ring, by ring⟩

set_option maxRecDepth 100000 in
theorem claim4_witness :
    SearchResult.mk 0 63 0 ∈ resultsOf (Section.Search
      { X := 0, Z := 0, Slime := fun _ => false }
      { W := 127, H := 1, Query := fun _ _ => false } 0) :=
  (claim4_section_search_semantics _ _ _ _ (by decide) (by decide) (by decide)
      (by decide)).mpr
    ⟨0, 0, by decide, by decide, by decide, by decide, by decide, by decide⟩

/-- C2 amended: for every input, the sequence returned by
`World.Search` is non-increasing in `Count`; among equal counts it is
non-decreasing in the squared distance of `(X, Z)` from the origin;
remaining ties are ordered by ascending `X`, then ascending `Z` (the
claim stated descending `X` and `Z`; the code's tie-break is
ascending). -/
theorem claim2_sorted_output (w x0 z0 x1 z1 t : Int) (m : Mask) :
    List.Chain' ascPair (resultsOf (World.Search w x0 z0 x1 z1 t m)) := by
  by_cases hb : m.W < 128 ∧ m.H < 128
  · rw [world_search_ok w x0 z0 x1 z1 t m hb.1 hb.2, resultsOf_ok]
    have hs := mergeBatches_sorted
      (((sectionOrigins m x0 z0 x1 z1).map fun p =>
          (computedSection w p.1 p.2).SearchP m t).filter fun b => b ≠ [])
    exact List.Chain'.imp (fun a b hab => (needSwap_false_iff a b).mp hab) hs.chain'
  · have herr : World.Search w x0 z0 x1 z1 t m
        = .error "Mask bounds exceed section size" := by
      unfold World.Search
      rw [if_pos (by simp only [SectionSize]; omega)]
    rw [herr]
    simp [resultsOf]

set_option maxRecDepth 200000 in
/-- C2 counterexample: seed 0, rectangle `(-129,0)-(1,1)`, threshold 0
and a `0×127` always-true mask produce two sections whose merged output
contains equal-count, equal-distance results ordered by ascending `X`
(e.g. `(0,-2,63)` directly before `(0,2,63)`), violating the claimed
descending-`X` tie-break. -/
theorem claim2_cex_ties_ascend :
    specSortedDesc (resultsOf (World.Search 0 (-129) 0 1 1 0
      { W := 0, H := 127, Query := fun _ _ => true })) = false := by
  rw [world_search_ok 0 (-129) 0 1 1 0 _ (by decide) (by decide), resultsOf_ok]
  decide
